import Mathlib

/-!
Verification of the core algorithms of the valeria-mcp-server scheduling
gateway, shallowly embedded in Lean.

Conventions of the embedding:

* Instants of time are integers counting seconds of local wall-clock time in
  the configured fixed-offset timezone (the default configuration is a
  constant-offset zone, so local wall-clock seconds order-embed the real
  timeline, whole-minute additions act as addition of 60-multiples, the
  minute-of-hour field of an instant t is (t / 60) % 60 and the local
  calendar day is t / 86400, with flooring division).
* The remote calendar collaborator is abstracted: the outcome of one
  insertion attempt is passed in as an argument of type Except eps alpha,
  and the number of times the remote operation is actually invoked is
  returned explicitly, so at-most-once properties are statements about that
  count.
* JavaScript objects used as string-keyed maps are embedded as association
  lists (preserving key order where iteration order matters) or, for the
  mutable TTL cache, as functions from keys to optional entries.
-/

namespace Valeria

/-! ## Intervals and the busy-interval merge (src/tools/calendar.js, mergeIntervals) -/

/-- A time interval with start and stop instants (local wall-clock seconds). -/
structure Interval where
  start : Int
  stop : Int
deriving DecidableEq, Repr

/-- Stable insertion of an interval into a list, before the first element with
a strictly larger start; together with sortIv this realises the stable sort
by the comparator a.start - b.start used in mergeIntervals. -/
def insertIv (x : Interval) : List Interval → List Interval
  | [] => [x]
  | y :: ys => if x.start ≤ y.start then x :: y :: ys else y :: insertIv x ys

/-- Stable sort of intervals ascending by start. -/
def sortIv : List Interval → List Interval
  | [] => []
  | x :: xs => insertIv x (sortIv xs)

/-- The accumulation loop of mergeIntervals: the first argument is the last
interval placed in the output; an incoming interval whose start is at or
before its stop extends it (to the larger stop), otherwise the last interval
is emitted and the incoming one becomes the new accumulator. -/
def mergeLoop : Interval → List Interval → List Interval
  | last, [] => [last]
  | last, cur :: rest =>
    if cur.start ≤ last.stop then
      mergeLoop ⟨last.start, if last.stop < cur.stop then cur.stop else last.stop⟩ rest
    else
      last :: mergeLoop cur rest

/-- mergeIntervals from src/tools/calendar.js: sort by start, then sweep
merging every interval that starts no later than the current accumulated
stop. -/
def mergeIntervals (l : List Interval) : List Interval :=
  match sortIv l with
  | [] => []
  | x :: xs => mergeLoop x xs

/-- Ordering of intervals by their start instants. -/
def startLE (a b : Interval) : Prop := a.start ≤ b.start

/-- Strict separation of two intervals: the first stops before the second
starts. -/
def sepLT (a b : Interval) : Prop := a.stop < b.start

/-- An instant t lies inside an interval (half-open convention). -/
def memIv (t : Int) (iv : Interval) : Prop := iv.start ≤ t ∧ t < iv.stop

/-- An instant is covered by some interval of the list. -/
def covered (t : Int) (l : List Interval) : Prop := ∃ iv ∈ l, memIv t iv

/-- Two intervals share no instant. -/
def disjointIv (a b : Interval) : Prop := ∀ t : Int, memIv t a → ¬ memIv t b

/-! ## Slot generation (src/tools/calendar.js, ceilToStep / genSlotsBackToBack) -/

/-- The minute-of-hour field of an instant. -/
def minuteOf (t : Int) : Int := (t / 60) % 60

/-- Truncation of an instant to its whole minute (the effect of setting the
second and millisecond fields to zero). -/
def floorMinute (t : Int) : Int := 60 * (t / 60)

/-- ceilToStep from src/tools/calendar.js: when the minute-of-hour is already
a multiple of stepMin the instant is merely truncated to the whole minute;
otherwise whole minutes are added up to the next multiple of stepMin of the
minute-of-hour, then the result is truncated to the whole minute. The grid
is therefore anchored at the top of the hour. -/
def ceilToStep (t : Int) (stepMin : Int) : Int :=
  if minuteOf t % stepMin = 0 then floorMinute t
  else floorMinute (t + (stepMin - minuteOf t % stepMin) * 60)

/-- Two instants fall on the same local calendar day. -/
abbrev sameDay (a b : Int) : Prop := a / 86400 = b / 86400

/-- Fuel-indexed unfolding of the slot packing while-loop of
genSlotsBackToBack: emit a slot of d seconds starting at s and advance by d
while a whole slot still fits before e. The fuel only bounds the number of
iterations; slotsLoop supplies enough fuel for every positive duration, so
for positive durations this is exactly the source loop. -/
def slotsGo : Nat → Int → Int → Int → List Interval
  | 0, _, _, _ => []
  | f + 1, s, e, d => if s + d ≤ e then ⟨s, s + d⟩ :: slotsGo f (s + d) e d else []

/-- The slot packing loop of genSlotsBackToBack, packing slots of d seconds
back-to-back from s while they fit before e. -/
def slotsLoop (s e d : Int) : List Interval := slotsGo (e - s).toNat s e d

/-- The per-gap body of genSlotsBackToBack: when the gap starts on the same
local day as now and before now, generation starts at now instead; the start
is then aligned with ceilToStep and slots of durMin minutes are packed
back-to-back. -/
def slotsForGap (durMin now : Int) (g : Interval) : List Interval :=
  let start0 := if sameDay now g.start ∧ g.start < now then now else g.start
  slotsLoop (ceilToStep start0 durMin) g.stop (60 * durMin)

/-- The per-gap body of genSlotsBackToBack with the now-filter removed, for
comparison: used to state that gaps on a different day than now are not
filtered at all. -/
def slotsForGapNoFilter (durMin : Int) (g : Interval) : List Interval :=
  slotsLoop (ceilToStep g.start durMin) g.stop (60 * durMin)

/-- genSlotsBackToBack from src/tools/calendar.js: per-gap slot lists
concatenated in gap order. -/
def genSlotsBackToBack (gaps : List Interval) (durMin now : Int) : List Interval :=
  gaps.flatMap (slotsForGap durMin now)

/-- Modelled from the spec wording of C3: rounding an instant t up to the
next boundary of a grid of step seconds anchored at a given instant. The
spec asserts the first slot starts at the gap start rounded up on a grid
anchored at the gap start, which is the gap start itself. -/
def ceilToGrid (anchor t step : Int) : Int :=
  anchor + step * ((t - anchor + step - 1) / step)

/-! ## Identity resolution (barbers.js, resolveBarber) -/

/-- Whitespace characters collapsed by the normalisation step. -/
def isWsChar (c : Char) : Bool := c = ' ' ∨ c = '\t' ∨ c = '\n' ∨ c = '\r'

/-- Accent folding: the composition of Unicode NFD decomposition with
removal of combining marks, restricted to the Latin letters with diacritics
that occur in the resource-configuration data; other characters are
unchanged. Uppercase accented letters are folded to lowercase base letters
because the source lowercases before decomposing. -/
def stripAccent (c : Char) : Char :=
  match c with
  | 'á' | 'Á' => 'a'
  | 'é' | 'É' => 'e'
  | 'í' | 'Í' => 'i'
  | 'ó' | 'Ó' => 'o'
  | 'ú' | 'Ú' | 'ü' | 'Ü' => 'u'
  | 'ñ' | 'Ñ' => 'n'
  | _ => c

/-- Collapse every maximal run of whitespace to a single space. -/
def collapseWs : List Char → List Char
  | [] => []
  | c :: cs =>
    let rest := collapseWs cs
    if isWsChar c then
      match rest with
      | ' ' :: _ => rest
      | _ => ' ' :: rest
    else c :: rest

/-- Remove leading and trailing whitespace. -/
def trimWs (l : List Char) : List Char :=
  ((l.dropWhile isWsChar).reverse.dropWhile isWsChar).reverse

/-- The normalize helper of barbers.js: lowercase, remove U+FFFD replacement
characters, fold accents, collapse whitespace runs to single spaces and trim. -/
def normalize (s : String) : String :=
  String.mk (trimWs (collapseWs ((s.data.filter (fun c => c ≠ '�')).map
    (fun c => stripAccent c.toLower))))

/-- Levenshtein edit distance; the dynamic-programming table of barbers.js
computes exactly this textbook recurrence (substitution, deletion,
insertion all of cost one). -/
def levenshtein : List Char → List Char → Nat
  | [], t => t.length
  | a :: s, [] => (a :: s).length
  | a :: s, b :: t =>
    if a = b then levenshtein s t
    else 1 + min (levenshtein s t) (min (levenshtein (a :: s) t) (levenshtein s (b :: t)))
termination_by s t => s.length + t.length
decreasing_by
  all_goals simp [List.length_cons]
  all_goals omega

/-- Whether the string b occurs inside the string a (JavaScript includes). -/
def strIncludes (a b : String) : Bool := decide (b.data <:+: a.data)

/-- looseMatch of barbers.js: both nonempty, and equal, or one a substring of
the other, or at edit distance at most one. -/
def looseMatch (a b : String) : Bool :=
  if a.isEmpty || b.isEmpty then false
  else if a == b then true
  else if strIncludes a b || strIncludes b a then true
  else decide (levenshtein a.data b.data ≤ 1)

/-- One resource record of the loaded mapping: public display name plus
aliases. -/
structure BarberCfg where
  displayName : String
  aliases : List String
deriving DecidableEq, Repr

/-- Whether a normalised query matches one resource record through its
display name or one of its aliases. -/
def matchPred (inputN : String) (cfg : BarberCfg) : Bool :=
  looseMatch inputN (normalize cfg.displayName) ||
    cfg.aliases.any (fun al => looseMatch inputN (normalize al))

/-- The list of matches collected by the resolver loop, in mapping order:
internal id paired with the display name. -/
def barberMatches (inputN : String) (bs : List (String × BarberCfg)) :
    List (String × String) :=
  (bs.filter (fun pr => matchPred inputN pr.2)).map (fun pr => (pr.1, pr.2.displayName))

/-- The internalIdMatch variable of the resolver loop: among the records that
did not match by display name or alias, the last whose normalised internal
id equals the normalised query (later assignments overwrite earlier ones). -/
def internalIdScan (inputN : String) : List (String × BarberCfg) → Option String
  | [] => none
  | (id, cfg) :: rest =>
    if matchPred inputN cfg then internalIdScan inputN rest
    else if inputN = normalize id then
      match internalIdScan inputN rest with
      | some j => some j
      | none => some id
    else internalIdScan inputN rest

/-- The possible outcomes of resolveBarber. -/
inductive ResolveOutcome
  | paramMissing
  | ok (barberId displayName : String)
  | internalIdUsed (internalId : String)
  | notFound
  | ambiguous (options : List (String × String))
deriving DecidableEq, Repr

/-- resolveBarber of barbers.js: an absent (empty) name is rejected first;
then the internal-id failure applies only when there is no match at all, a
unique match succeeds and several matches are ambiguous. -/
def resolveBarber (bs : List (String × BarberCfg)) (name : String) : ResolveOutcome :=
  if name = "" then .paramMissing
  else
    match internalIdScan (normalize name) bs, barberMatches (normalize name) bs with
    | some iid, [] => .internalIdUsed iid
    | none, [] => .notFound
    | _, [m] => .ok m.1 m.2
    | _, m1 :: m2 :: ms => .ambiguous (m1 :: m2 :: ms)

/-! ## TTL cache and the idempotent create path (utils/cache.js, src/tools/calendar.js) -/

/-- The TTL cache state: each key holds an optional value together with its
absolute expiry instant. -/
def CacheF (α : Type) : Type := String → Option (α × Int)

/-- The value read from the cache at instant t: present and not expired. An
entry is expired when the current instant is strictly past its expiry. -/
def cacheGetVal (t : Int) (c : CacheF α) (k : String) : Option α :=
  match c k with
  | none => none
  | some (v, exp) => if exp < t then none else some v

/-- The cache state after a read at instant t: a read lazily deletes the
entry under the key when it is expired, and changes nothing otherwise. -/
def cacheEvict (t : Int) (c : CacheF α) (k : String) : CacheF α :=
  match c k with
  | some (_, exp) =>
    if exp < t then (fun k' => if k' = k then none else c k') else c
  | none => c

/-- Storing a value under a key with an absolute expiry instant. -/
def cacheSet (c : CacheF α) (k : String) (v : α) (exp : Int) : CacheF α :=
  fun k' => if k' = k then some (v, exp) else c k'

/-- withIdempotency of src/tools/calendar.js at instant t: on a cache hit the
cached result is returned and the wrapped operation is not invoked; on a
miss the operation (whose outcome is the argument fn) is invoked once, and
only a successful result is stored, under a twenty-four hour expiry. The
third component counts invocations of the wrapped operation. -/
def withIdempotency (t : Int) (k : String) (c : CacheF α) (fn : Except ε α) :
    Except ε α × CacheF α × Nat :=
  match cacheGetVal t c k with
  | some v => (.ok v, cacheEvict t c k, 0)
  | none =>
    match fn with
    | .error e => (.error e, cacheEvict t c k, 1)
    | .ok v => (.ok v, cacheSet (cacheEvict t c k) k v (t + 86400), 1)

/-- The failure taxonomy of the create path; remote carries the collaborator
failure through unchanged. -/
inductive CreateErr (ε : Type)
  | missingWhen
  | missingWho
  | barberNotFound
  | missingCalendar
  | invalidWhen
  | inPast
  | remote (e : ε)
deriving DecidableEq, Repr

/-- The parameters of one create call. The requested time is embedded at the
parse level: none means the parameter is absent, some none a string that
does not parse, some (some dt) a string parsing to the instant dt. -/
structure CreateParams where
  whenP : Option (Option Int)
  whoP : Option String
  durationP : Option Int
  calendarIdP : Option String
  barberP : Option String
  clientRequestIdP : Option String

/-- resolveCalendarId of src/tools/calendar.js: an explicit calendar id wins;
otherwise a named barber is looked up in the loaded mapping; otherwise the
calendar reference is missing. -/
def resolveCalendarId (barberMap : List (String × String))
    (calendarIdP barberP : Option String) : Except (CreateErr ε) String :=
  match calendarIdP with
  | some cid => .ok cid
  | none =>
    match barberP with
    | some b =>
      match barberMap.find? (fun kv => kv.1 = b) with
      | some kv => .ok kv.2
      | none => .error .barberNotFound
    | none => .error .missingCalendar

/-- ensureFuture of src/tools/calendar.js: an unparsable time fails with
invalidWhen, a parsed time at or before now fails with inPast. -/
def ensureFuture (now : Int) (parsed : Option Int) : Except (CreateErr ε) Int :=
  match parsed with
  | none => .error .invalidWhen
  | some dt => if dt ≤ now then .error .inPast else .ok dt

/-- createEvent of src/tools/calendar.js at instant t, with the remote
insertion outcome abstracted as the argument remote (of booking type α):
parameter checks, calendar resolution and the future check run in source
order before any remote work; with a client request id the remote call is
wrapped in withIdempotency under the key derived from the token, otherwise
it is executed directly. The third component counts remote insertions. -/
def createEvent (t : Int) (barberMap : List (String × String)) (p : CreateParams)
    (c : CacheF α) (remote : Except ε α) :
    Except (CreateErr ε) α × CacheF α × Nat :=
  match p.whenP with
  | none => (.error .missingWhen, c, 0)
  | some parsed =>
    match p.whoP with
    | none => (.error .missingWho, c, 0)
    | some _ =>
      match (resolveCalendarId barberMap p.calendarIdP p.barberP :
          Except (CreateErr ε) String) with
      | .error e => (.error e, c, 0)
      | .ok _ =>
        match (ensureFuture t parsed : Except (CreateErr ε) Int) with
        | .error e => (.error e, c, 0)
        | .ok _ =>
          match p.clientRequestIdP with
          | some rid =>
            let r := withIdempotency t ("calendar:create:" ++ rid) c remote
            (r.1.mapError CreateErr.remote, r.2.1, r.2.2)
          | none =>
            match remote with
            | .ok v => (.ok v, c, 1)
            | .error e => (.error (.remote e), c, 1)

/-! ## Rate limiter (src/mcp/router.js, rateAllow) -/

/-- The per-key window record of the in-memory rate limiter. -/
structure RateWindow where
  windowStart : Int
  count : Int
deriving DecidableEq, Repr

/-- rateAllow of src/mcp/router.js for one key: a non-positive limit disables
limiting; a call at least sixty seconds after the stored window start resets
the window to a count of one and is allowed; within the window a count at
the limit rejects the call without touching the stored state; otherwise the
count is incremented and the call is allowed. -/
def rateAllow (limit : Int) (nowSec : Int) (st : Option RateWindow) :
    Bool × Option RateWindow :=
  if limit ≤ 0 then (true, st)
  else
    let w := st.getD ⟨nowSec, 0⟩
    if 60 ≤ nowSec - w.windowStart then (true, some ⟨nowSec, 1⟩)
    else if limit ≤ w.count then (false, st)
    else (true, some ⟨w.windowStart, w.count + 1⟩)

/-- A sequence of rateAllow calls at the given instants, threading the stored
window state and collecting each call's verdict. -/
def rateAllowRun (limit : Int) (st : Option RateWindow) :
    List Int → List Bool × Option RateWindow
  | [] => ([], st)
  | t :: ts =>
    let r := rateAllow limit t st
    let rest := rateAllowRun limit r.2 ts
    (r.1 :: rest.1, rest.2)

/-! ## Authentication (src/mcp/router.js and src/middleware/auth.js) -/

/-- The number of bytes of the UTF-8 encoding of a string, the length of the
buffer the source builds from it. -/
def utf8Len (s : String) : Nat := s.data.foldl (fun n c => n + c.utf8Size) 0

/-- timingSafeCompare of src/mcp/router.js: encodings of different lengths
compare unequal (the padded constant-time comparison is conjoined with
false); encodings of equal length are compared byte for byte, which for
UTF-8 encodings coincides with string equality. -/
def timingSafeCompare (a b : String) : Bool :=
  if utf8Len a = utf8Len b then a == b else false

/-- The authentication decision of the router POST handler: with no
configured key every caller is authorized, otherwise the presented
credential must compare equal to the configured key. -/
def routerAuth (apiKey incoming : String) : Bool :=
  if apiKey = "" then true else timingSafeCompare apiKey incoming

/-- The outcome of the standalone auth middleware. -/
inductive AuthOutcome
  | allowed
  | unauthorized
  | serverError
deriving DecidableEq, Repr

/-- The bearer token extracted from an Authorization header by
src/middleware/auth.js: present when the header begins with the Bearer
marker, in which case it is the rest of the header. -/
def extractBearer (hdr : String) : Option String :=
  if "Bearer ".data.isPrefixOf hdr.data then some (String.mk (hdr.data.drop 7)) else none

/-- The auth middleware of src/middleware/auth.js: an unconfigured key is a
server error for every request; with a configured key the request passes
exactly when a bearer token is present and equals the key. -/
def authMiddleware (configApiKey : String) (hdr : String) : AuthOutcome :=
  let token := extractBearer hdr
  if configApiKey = "" then .serverError
  else
    match token with
    | some tok => if tok = configApiKey then .allowed else .unauthorized
    | none => .unauthorized

/-! ## Theorems: mergeIntervals (claim C1) -/

theorem covered_cons {t : Int} {a : Interval} {l : List Interval} :
    covered t (a :: l) ↔ memIv t a ∨ covered t l := by
  simp only [covered, List.mem_cons]
  constructor
  · rintro ⟨iv, rfl | hiv, hm⟩
    · exact Or.inl hm
    · exact Or.inr ⟨iv, hiv, hm⟩
  · rintro (hm | ⟨iv, hiv, hm⟩)
    · exact ⟨a, Or.inl rfl, hm⟩
    · exact ⟨iv, Or.inr hiv, hm⟩

theorem covered_perm {t : Int} {l₁ l₂ : List Interval} (h : List.Perm l₁ l₂) :
    covered t l₁ ↔ covered t l₂ := by
  unfold covered
  constructor
  · rintro ⟨iv, hiv, hm⟩; exact ⟨iv, h.mem_iff.mp hiv, hm⟩
  · rintro ⟨iv, hiv, hm⟩; exact ⟨iv, h.mem_iff.mpr hiv, hm⟩

theorem insertIv_perm (x : Interval) (l : List Interval) :
    List.Perm (insertIv x l) (x :: l) := by
  induction l with
  | nil => simp [insertIv]
  | cons y ys ih =>
    by_cases h : x.start ≤ y.start
    · simp [insertIv, h]
    · simp only [insertIv, if_neg h]
      exact (ih.cons y).trans (List.Perm.swap x y ys)

theorem sortIv_perm (l : List Interval) : List.Perm (sortIv l) l := by
  induction l with
  | nil => simp [sortIv]
  | cons x xs ih => exact (insertIv_perm x (sortIv xs)).trans (ih.cons x)

theorem pairwise_insertIv {x : Interval} {l : List Interval}
    (h : List.Pairwise startLE l) : List.Pairwise startLE (insertIv x l) := by
  induction l with
  | nil => simp [insertIv, List.pairwise_singleton]
  | cons y ys ih =>
    rcases List.pairwise_cons.mp h with ⟨hy, hys⟩
    by_cases hx : x.start ≤ y.start
    · rw [insertIv, if_pos hx]
      refine List.pairwise_cons.mpr ⟨?_, h⟩
      intro z hz
      rcases List.mem_cons.mp hz with rfl | hz'
      · exact hx
      · exact le_trans hx (hy z hz')
    · rw [insertIv, if_neg hx]
      refine List.pairwise_cons.mpr ⟨?_, ih hys⟩
      intro z hz
      have hmem : z = x ∨ z ∈ ys := List.mem_cons.mp ((insertIv_perm x ys).mem_iff.mp hz)
      rcases hmem with h' | hz'
      · rw [h']; exact le_of_lt (lt_of_not_le hx)
      · exact hy z hz'

theorem sortIv_pairwise (l : List Interval) : List.Pairwise startLE (sortIv l) := by
  induction l with
  | nil => exact List.Pairwise.nil
  | cons x xs ih => exact pairwise_insertIv ih

theorem insertIv_front {x : Interval} {l : List Interval}
    (h : ∀ y ∈ l, x.start ≤ y.start) : insertIv x l = x :: l := by
  cases l with
  | nil => rfl
  | cons y ys => rw [insertIv, if_pos (h y (List.mem_cons_self y ys))]

theorem sortIv_eq_self {l : List Interval} (h : List.Pairwise startLE l) :
    sortIv l = l := by
  induction l with
  | nil => rfl
  | cons x xs ih =>
    rcases List.pairwise_cons.mp h with ⟨hx, hxs⟩
    rw [sortIv, ih hxs, insertIv_front hx]

theorem mergeLoop_shape (l : List Interval) : ∀ last : Interval,
    ∃ b tl, mergeLoop last l = ⟨last.start, b⟩ :: tl ∧ last.stop ≤ b := by
  induction l with
  | nil => intro last; exact ⟨last.stop, [], rfl, le_refl _⟩
  | cons cur rest ih =>
    intro last
    by_cases h : cur.start ≤ last.stop
    · obtain ⟨b, tl, heq, hb⟩ :=
        ih ⟨last.start, if last.stop < cur.stop then cur.stop else last.stop⟩
      refine ⟨b, tl, ?_, ?_⟩
      · simp only [mergeLoop, if_pos h]; exact heq
      · refine le_trans ?_ hb
        by_cases h2 : last.stop < cur.stop
        · simp only [if_pos h2]; omega
        · simp only [if_neg h2]; exact le_refl _
    · exact ⟨last.stop, mergeLoop cur rest, by simp only [mergeLoop, if_neg h], le_refl _⟩

theorem memIv_merge {last cur : Interval} (hle : last.start ≤ cur.start)
    (hov : cur.start ≤ last.stop) (t : Int) :
    memIv t ⟨last.start, if last.stop < cur.stop then cur.stop else last.stop⟩ ↔
      memIv t last ∨ memIv t cur := by
  by_cases hc : last.stop < cur.stop
  · simp only [memIv, if_pos hc]; omega
  · simp only [memIv, if_neg hc]; omega

theorem mergeLoop_spec (l : List Interval) : ∀ last : Interval,
    List.Pairwise startLE l → (∀ x ∈ l, last.start ≤ x.start) →
    List.Pairwise startLE (mergeLoop last l) ∧
    List.Chain' sepLT (mergeLoop last l) ∧
    (∀ iv ∈ mergeLoop last l, last.start ≤ iv.start) ∧
    (∀ t : Int, covered t (mergeLoop last l) ↔ memIv t last ∨ covered t l) := by
  induction l with
  | nil =>
    intro last _ _
    refine ⟨List.pairwise_singleton _ _, List.chain'_singleton _, ?_, ?_⟩
    · intro iv hiv
      rcases List.mem_singleton.mp hiv with rfl
      exact le_refl _
    · intro t
      rw [show mergeLoop last [] = [last] from rfl, covered_cons]
  | cons cur rest ih =>
    intro last hpw hge
    rcases List.pairwise_cons.mp hpw with ⟨hcur, hrest⟩
    have hlast_cur : last.start ≤ cur.start := hge cur (List.mem_cons_self cur rest)
    by_cases h : cur.start ≤ last.stop
    · have hge' : ∀ x ∈ rest,
          (Interval.mk last.start
            (if last.stop < cur.stop then cur.stop else last.stop)).start ≤ x.start := by
        intro x hx
        exact hge x (List.mem_cons_of_mem cur hx)
      obtain ⟨hp, hc, hs, hcov⟩ :=
        ih ⟨last.start, if last.stop < cur.stop then cur.stop else last.stop⟩ hrest hge'
      rw [show mergeLoop last (cur :: rest) =
        mergeLoop ⟨last.start, if last.stop < cur.stop then cur.stop else last.stop⟩ rest
        from by simp only [mergeLoop, if_pos h]]
      refine ⟨hp, hc, hs, ?_⟩
      intro t
      rw [hcov t, memIv_merge hlast_cur h t, covered_cons]
      tauto
    · obtain ⟨hp, hc, hs, hcov⟩ := ih cur hrest (fun x hx => hcur x hx)
      obtain ⟨b, tl, hshape, _⟩ := mergeLoop_shape rest cur
      rw [show mergeLoop last (cur :: rest) = last :: mergeLoop cur rest
        from by simp only [mergeLoop, if_neg h]]
      refine ⟨?_, ?_, ?_, ?_⟩
      · refine List.pairwise_cons.mpr ⟨?_, hp⟩
        intro iv hiv
        exact le_trans hlast_cur (hs iv hiv)
      · rw [hshape]
        refine List.chain'_cons.mpr ⟨?_, ?_⟩
        · show last.stop < cur.start
          omega
        · rw [← hshape]; exact hc
      · intro iv hiv
        rcases List.mem_cons.mp hiv with rfl | hiv'
        · exact le_refl _
        · exact le_trans hlast_cur (hs iv hiv')
      · intro t
        rw [covered_cons, hcov t, covered_cons]

theorem pairwise_disjoint_of_sorted_sep : ∀ {l : List Interval},
    List.Pairwise startLE l → List.Chain' sepLT l → List.Pairwise disjointIv l := by
  intro l
  induction l with
  | nil => intro _ _; exact List.Pairwise.nil
  | cons x xs ih =>
    intro hp hc
    rcases List.pairwise_cons.mp hp with ⟨_, hxs⟩
    have hc' : List.Chain' sepLT xs := hc.tail
    refine List.pairwise_cons.mpr ⟨?_, ih hxs hc'⟩
    intro y hy t hmx hmy
    cases xs with
    | nil => cases hy
    | cons z rest =>
      have hxz : x.stop < z.start := (List.chain'_cons.mp hc).1
      have hzy : z.start ≤ y.start := by
        rcases List.mem_cons.mp hy with rfl | hy'
        · exact le_refl _
        · exact (List.pairwise_cons.mp hxs).1 y hy'
      rcases hmx with ⟨_, hx2⟩
      rcases hmy with ⟨hy1, _⟩
      omega

theorem mergeLoop_of_sep : ∀ (l : List Interval) (last : Interval),
    List.Chain' sepLT (last :: l) → mergeLoop last l = last :: l := by
  intro l
  induction l with
  | nil => intro last _; rfl
  | cons cur rest ih =>
    intro last hc
    have h1 : last.stop < cur.start := (List.chain'_cons.mp hc).1
    have hneg : ¬ cur.start ≤ last.stop := by omega
    rw [show mergeLoop last (cur :: rest) = last :: mergeLoop cur rest
      from by simp only [mergeLoop, if_neg hneg]]
    rw [ih cur (List.chain'_cons.mp hc).2]

theorem mergeIntervals_sorted_sep_covered (l : List Interval) :
    List.Pairwise startLE (mergeIntervals l) ∧
    List.Chain' sepLT (mergeIntervals l) ∧
    ∀ t : Int, covered t (mergeIntervals l) ↔ covered t l := by
  unfold mergeIntervals
  cases hs : sortIv l with
  | nil =>
    have hperm := sortIv_perm l
    rw [hs] at hperm
    have hl : l = [] := hperm.symm.eq_nil
    subst hl
    refine ⟨List.Pairwise.nil, List.chain'_nil, fun t => Iff.rfl⟩
  | cons x xs =>
    have hpw : List.Pairwise startLE (x :: xs) := by
      rw [← hs]; exact sortIv_pairwise l
    rcases List.pairwise_cons.mp hpw with ⟨hx, hxs⟩
    obtain ⟨hp, hc, _, hcov⟩ := mergeLoop_spec xs x hxs (fun y hy => hx y hy)
    refine ⟨hp, hc, ?_⟩
    intro t
    rw [hcov t, ← covered_cons]
    rw [show covered t (x :: xs) ↔ covered t l from by
      rw [← hs]; exact covered_perm (sortIv_perm l)]

theorem mergeIntervals_fixed {l : List Interval} (h1 : List.Pairwise startLE l)
    (h2 : List.Chain' sepLT l) : mergeIntervals l = l := by
  have hs := sortIv_eq_self h1
  cases l with
  | nil => rfl
  | cons x xs =>
    unfold mergeIntervals
    rw [hs]
    exact mergeLoop_of_sep xs x h2

/-- C1: for every list of busy intervals, mergeIntervals is idempotent, its
output is sorted ascending by start, consecutive output intervals are
strictly separated (hence all pairs of output intervals are disjoint as sets
of instants), and an instant is covered by the merged list exactly when it
is covered by some input interval. -/
theorem c1_mergeIntervals_spec (l : List Interval) :
    mergeIntervals (mergeIntervals l) = mergeIntervals l ∧
    List.Pairwise startLE (mergeIntervals l) ∧
    List.Chain' sepLT (mergeIntervals l) ∧
    List.Pairwise disjointIv (mergeIntervals l) ∧
    ∀ t : Int, covered t (mergeIntervals l) ↔ covered t l := by
  obtain ⟨hp, hc, hcov⟩ := mergeIntervals_sorted_sep_covered l
  exact ⟨mergeIntervals_fixed hp hc, hp, hc,
    pairwise_disjoint_of_sorted_sep hp hc, hcov⟩

/-! ## Theorems: slot generation (claims C2, C3, C9) -/

theorem slotsGo_mem {e d : Int} : ∀ (f : Nat) (s : Int) (iv : Interval),
    iv ∈ slotsGo f s e d → iv.stop - iv.start = d ∧ iv.stop ≤ e := by
  intro f
  induction f with
  | zero => intro s iv h; cases h
  | succ n ih =>
    intro s iv h
    simp only [slotsGo] at h
    by_cases hg : s + d ≤ e
    · rw [if_pos hg] at h
      rcases List.mem_cons.mp h with rfl | h'
      · exact ⟨show s + d - s = d by omega, show s + d ≤ e from hg⟩
      · exact ih (s + d) iv h'
    · rw [if_neg hg] at h; cases h

theorem slotsGo_start_ge {e d : Int} (hd : 0 ≤ d) : ∀ (f : Nat) (s : Int) (iv : Interval),
    iv ∈ slotsGo f s e d → s ≤ iv.start := by
  intro f
  induction f with
  | zero => intro s iv h; cases h
  | succ n ih =>
    intro s iv h
    simp only [slotsGo] at h
    by_cases hg : s + d ≤ e
    · rw [if_pos hg] at h
      rcases List.mem_cons.mp h with rfl | h'
      · exact le_refl _
      · exact le_trans (by omega) (ih (s + d) iv h')
    · rw [if_neg hg] at h; cases h

theorem slotsGo_head {e d : Int} (f : Nat) (s : Int) :
    slotsGo f s e d = [] ∨ ∃ tl, slotsGo f s e d = ⟨s, s + d⟩ :: tl := by
  cases f with
  | zero => exact Or.inl rfl
  | succ n =>
    simp only [slotsGo]
    by_cases hg : s + d ≤ e
    · rw [if_pos hg]; exact Or.inr ⟨_, rfl⟩
    · rw [if_neg hg]; exact Or.inl rfl

theorem slotsGo_chain {e d : Int} : ∀ (f : Nat) (s : Int),
    List.Chain' (fun a b => a.stop = b.start) (slotsGo f s e d) := by
  intro f
  induction f with
  | zero => intro s; exact List.chain'_nil
  | succ n ih =>
    intro s
    simp only [slotsGo]
    by_cases hg : s + d ≤ e
    · rw [if_pos hg]
      refine List.chain'_cons'.mpr ⟨?_, ih (s + d)⟩
      intro b hb
      rcases @slotsGo_head e d n (s + d) with h0 | ⟨tl, heq⟩
      · rw [h0] at hb; cases hb
      · rw [heq] at hb
        simp only [List.head?_cons, Option.mem_def, Option.some.injEq] at hb
        rw [← hb]
    · rw [if_neg hg]; exact List.chain'_nil

theorem slotsGo_congr {e d : Int} (hd : 0 < d) : ∀ (f₁ f₂ : Nat) (s : Int),
    (e - s).toNat ≤ f₁ → (e - s).toNat ≤ f₂ → slotsGo f₁ s e d = slotsGo f₂ s e d := by
  intro f₁
  induction f₁ with
  | zero =>
    intro f₂ s h1 _
    have hg : ¬ s + d ≤ e := by omega
    cases f₂ with
    | zero => rfl
    | succ m => simp only [slotsGo, if_neg hg]
  | succ n ih =>
    intro f₂ s h1 h2
    cases f₂ with
    | zero =>
      have hg : ¬ s + d ≤ e := by omega
      simp only [slotsGo, if_neg hg]
    | succ m =>
      simp only [slotsGo]
      by_cases hg : s + d ≤ e
      · rw [if_pos hg, if_pos hg, ih m (s + d) (by omega) (by omega)]
      · rw [if_neg hg, if_neg hg]

theorem slotsLoop_eq {d : Int} (hd : 0 < d) (s e : Int) :
    slotsLoop s e d = if s + d ≤ e then ⟨s, s + d⟩ :: slotsLoop (s + d) e d else [] := by
  unfold slotsLoop
  by_cases hg : s + d ≤ e
  · rw [if_pos hg]
    have h1 : (e - s).toNat = ((e - s).toNat - 1) + 1 := by omega
    rw [h1]
    simp only [slotsGo, if_pos hg]
    rw [slotsGo_congr hd ((e - s).toNat - 1) ((e - (s + d)).toNat) (s + d)
      (by omega) (by omega)]
  · rw [if_neg hg]
    cases hf : (e - s).toNat with
    | zero => rfl
    | succ m => simp only [slotsGo, if_neg hg]

theorem slotsGo_nil {e d : Int} (hd : 0 < d) (f : Nat) (s : Int)
    (hf : (e - s).toNat ≤ f) (hnil : slotsGo f s e d = []) : ¬ (s + d ≤ e) := by
  intro hg
  cases f with
  | zero => omega
  | succ n =>
    rw [show slotsGo (n + 1) s e d = ⟨s, s + d⟩ :: slotsGo n (s + d) e d
      from by simp only [slotsGo, if_pos hg]] at hnil
    exact List.cons_ne_nil _ _ hnil

theorem slotsGo_last {e d : Int} (hd : 0 < d) : ∀ (f : Nat) (s : Int),
    (e - s).toNat ≤ f →
    ∀ last, (slotsGo f s e d).getLast? = some last → e - last.stop < d := by
  intro f
  induction f with
  | zero => intro s _ last h; cases h
  | succ n ih =>
    intro s hf last h
    by_cases hg : s + d ≤ e
    · rw [show slotsGo (n + 1) s e d = ⟨s, s + d⟩ :: slotsGo n (s + d) e d
        from by simp only [slotsGo, if_pos hg]] at h
      cases hrec : slotsGo n (s + d) e d with
      | nil =>
        rw [hrec, List.getLast?_singleton] at h
        have hlast : last = ⟨s, s + d⟩ := by
          rw [Option.some.injEq] at h; exact h.symm
        have hstop : ¬ (s + d + d ≤ e) := slotsGo_nil hd n (s + d) (by omega) hrec
        rw [hlast]
        show e - (s + d) < d
        omega
      | cons b l' =>
        rw [hrec, List.getLast?_cons_cons] at h
        rw [← hrec] at h
        exact ih (s + d) (by omega) last h
    · rw [show slotsGo (n + 1) s e d = [] from by simp only [slotsGo, if_neg hg]] at h
      cases h

theorem slotsLoop_getLast {d : Int} (hd : 0 < d) (s e : Int) (last : Interval)
    (h : (slotsLoop s e d).getLast? = some last) : e - last.stop < d :=
  slotsGo_last hd ((e - s).toNat) s (le_refl _) last h

theorem floorMinute_add_minutes (t k : Int) :
    floorMinute (t + k * 60) = floorMinute t + k * 60 := by
  unfold floorMinute
  omega

theorem floorMinute_le (t : Int) : floorMinute t ≤ t := by
  unfold floorMinute
  omega

theorem floorMinute_mono {a b : Int} (h : a ≤ b) : floorMinute a ≤ floorMinute b := by
  unfold floorMinute
  omega

theorem floorMinute_eq_self {t : Int} (h : t % 60 = 0) : floorMinute t = t := by
  unfold floorMinute
  omega

theorem ceilToStep_ge_floor {t step : Int} (hs : 0 < step) :
    floorMinute t ≤ ceilToStep t step := by
  by_cases hr : minuteOf t % step = 0
  · rw [ceilToStep, if_pos hr]
  · rw [ceilToStep, if_neg hr]
    rw [floorMinute_add_minutes]
    have h1 : 0 ≤ minuteOf t % step := Int.emod_nonneg _ (by omega)
    have h2 : minuteOf t % step < step := Int.emod_lt_of_pos _ hs
    omega

theorem slotsForGap_start0_ge (g : Interval) (now : Int) :
    g.start ≤ (if sameDay now g.start ∧ g.start < now then now else g.start) := by
  by_cases hcond : sameDay now g.start ∧ g.start < now
  · rw [if_pos hcond]; exact le_of_lt hcond.2
  · rw [if_neg hcond]

/-- C2 (amended): for every gap, duration d greater than zero and reference
instant now, every slot produced for the gap has length exactly d minutes,
consecutive slots in the gap are contiguous (each starts exactly where the
previous one ends), every slot ends no later than the gap end, and every
slot starts no earlier than the gap start truncated to its whole minute; in
particular when the gap start is minute-aligned every slot lies fully
within the gap. Every slot produced by genSlotsBackToBack arises this way
from one of its gaps. The original claim that slots always lie fully within
their gap fails, because ceilToStep truncates seconds: a gap starting
within a minute whose minute-of-hour is already on the grid yields a first
slot starting up to fifty-nine seconds before the gap start. -/
theorem c2_slotLength_contiguity (g : Interval) (d now : Int) (hd : 0 < d) :
    (∀ iv ∈ slotsForGap d now g, iv.stop - iv.start = 60 * d) ∧
    List.Chain' (fun a b => a.stop = b.start) (slotsForGap d now g) ∧
    (∀ iv ∈ slotsForGap d now g, iv.stop ≤ g.stop) ∧
    (∀ iv ∈ slotsForGap d now g, floorMinute g.start ≤ iv.start) ∧
    (g.start % 60 = 0 → ∀ iv ∈ slotsForGap d now g, g.start ≤ iv.start) ∧
    (∀ gaps : List Interval, ∀ iv ∈ genSlotsBackToBack gaps d now,
      ∃ g' ∈ gaps, iv ∈ slotsForGap d now g') := by
  have hfloor : ∀ iv ∈ slotsForGap d now g, floorMinute g.start ≤ iv.start := by
    intro iv hiv
    unfold slotsForGap slotsLoop at hiv
    have h1 := @slotsGo_start_ge g.stop (60 * d) (by omega) _ _ iv hiv
    refine le_trans ?_ h1
    refine le_trans (floorMinute_mono (slotsForGap_start0_ge g now)) ?_
    exact ceilToStep_ge_floor hd
  refine ⟨?_, ?_, ?_, hfloor, ?_, ?_⟩
  · intro iv hiv
    unfold slotsForGap slotsLoop at hiv
    exact (slotsGo_mem _ _ iv hiv).1
  · unfold slotsForGap slotsLoop
    exact slotsGo_chain _ _
  · intro iv hiv
    unfold slotsForGap slotsLoop at hiv
    exact (slotsGo_mem _ _ iv hiv).2
  · intro halign iv hiv
    rw [← floorMinute_eq_self halign]
    exact hfloor iv hiv
  · intro gaps iv hiv
    exact List.mem_flatMap.mp hiv

/-- C2 witness at a concrete gap, duration and reference instant. -/
theorem c2_slotLength_contiguity_wit :
    (0 : Int) < 30 ∧
    ∀ iv ∈ slotsForGap 30 (-86400) ⟨0, 3600⟩, iv.stop - iv.start = 60 * 30 :=
  ⟨by norm_num, (c2_slotLength_contiguity ⟨0, 3600⟩ 30 (-86400) (by norm_num)).1⟩

/-- C2 counterexample: for the gap from thirty seconds past midnight to
one hour past midnight with a thirty-minute duration, the generator emits a
slot starting at midnight, strictly before the gap start, so the slot does
not lie fully within the gap. -/
theorem c2_counterexample :
    ∃ iv ∈ slotsForGap 30 (-86400) ⟨30, 3600⟩, iv.start < (30 : Int) := by decide

/-- C3 (amended): for a gap not filtered by now (its start is on a different
local day than now) and a positive duration, slot generation starts at the
gap start rounded by ceilToStep — a grid anchored at the top of the hour of
the gap start, not at the gap start itself — and packs slots back-to-back
until the space left before the gap end is smaller than one duration: the
first slot starts exactly at ceilToStep of the gap start whenever one
duration fits there, no slot is produced when it does not, and after the
last slot less than one duration remains. -/
theorem c3_firstSlot_grid (g : Interval) (d now : Int) (hd : 0 < d)
    (hday : ¬ sameDay now g.start) :
    slotsForGap d now g = slotsForGapNoFilter d g ∧
    (ceilToStep g.start d + 60 * d ≤ g.stop →
      (slotsForGap d now g).head? =
        some ⟨ceilToStep g.start d, ceilToStep g.start d + 60 * d⟩) ∧
    (g.stop < ceilToStep g.start d + 60 * d → slotsForGap d now g = []) ∧
    (∀ last, (slotsForGap d now g).getLast? = some last →
      g.stop - last.stop < 60 * d) ∧
    List.Chain' (fun a b => a.stop = b.start) (slotsForGap d now g) := by
  have hcond : ¬ (sameDay now g.start ∧ g.start < now) := fun h => hday h.1
  have heq : slotsForGap d now g = slotsForGapNoFilter d g := by
    unfold slotsForGap slotsForGapNoFilter
    rw [if_neg hcond]
  have hd60 : (0 : Int) < 60 * d := by omega
  refine ⟨heq, ?_, ?_, ?_, ?_⟩
  · intro hfit
    rw [heq]
    unfold slotsForGapNoFilter
    rw [slotsLoop_eq hd60, if_pos hfit]
    rfl
  · intro hnofit
    rw [heq]
    unfold slotsForGapNoFilter
    rw [slotsLoop_eq hd60, if_neg (by omega)]
  · intro last hlast
    rw [heq] at hlast
    unfold slotsForGapNoFilter at hlast
    exact slotsLoop_getLast hd60 _ _ last hlast
  · unfold slotsForGap slotsLoop
    exact slotsGo_chain _ _

/-- C3 witness: for the unfiltered gap from ten minutes past midnight to two
hours past midnight with a thirty-minute duration, the first slot starts at
ceilToStep of the gap start. -/
theorem c3_firstSlot_grid_wit :
    (slotsForGap 30 (-86400) ⟨600, 7200⟩).head? =
      some ⟨ceilToStep 600 30, ceilToStep 600 30 + 60 * 30⟩ :=
  (c3_firstSlot_grid ⟨600, 7200⟩ 30 (-86400) (by norm_num) (by decide)).2.1 (by decide)

/-- C3 counterexample: for a gap starting ten minutes past the hour with a
thirty-minute duration, the code's first slot starts at minute thirty of
the hour, whereas rounding the gap start up on a grid anchored at the gap
start (as the claim states) yields the gap start itself. -/
theorem c3_counterexample :
    (slotsForGap 30 (-86400) ⟨600, 7200⟩).head? = some ⟨1800, 3600⟩ ∧
    ceilToGrid 600 600 1800 = 600 ∧ (1800 : Int) ≠ 600 := by decide

/-- C9: the now-filter applies only to gaps starting on the same local
calendar day as now: a gap on any other day is generated exactly as if no
filter existed, and consequently, when such a gap also ends at or before
now (as every gap of a query range lying entirely on earlier days does),
every slot produced for it ends at or before now, i.e. lies entirely in the
past. -/
theorem c9_offday_no_filter (g : Interval) (d now : Int)
    (hday : ¬ sameDay now g.start) :
    slotsForGap d now g = slotsForGapNoFilter d g ∧
    (g.stop ≤ now → ∀ iv ∈ slotsForGap d now g, iv.stop ≤ now) := by
  have hcond : ¬ (sameDay now g.start ∧ g.start < now) := fun h => hday h.1
  refine ⟨?_, ?_⟩
  · unfold slotsForGap slotsForGapNoFilter
    rw [if_neg hcond]
  · intro hpast iv hiv
    unfold slotsForGap slotsLoop at hiv
    exact le_trans (slotsGo_mem _ _ iv hiv).2 hpast

/-- C9 witness: a gap spanning the first two hours of the previous day,
queried when now is the following midnight, is generated without filtering
and yields a nonempty list of slots that all end in the past. -/
theorem c9_offday_no_filter_wit :
    slotsForGap 60 86400 ⟨0, 7200⟩ = slotsForGapNoFilter 60 ⟨0, 7200⟩ ∧
    slotsForGap 60 86400 ⟨0, 7200⟩ ≠ [] ∧
    ∀ iv ∈ slotsForGap 60 86400 ⟨0, 7200⟩, iv.stop ≤ 86400 :=
  ⟨(c9_offday_no_filter ⟨0, 7200⟩ 60 86400 (by decide)).1, by decide,
    (c9_offday_no_filter ⟨0, 7200⟩ 60 86400 (by decide)).2 (by decide)⟩

/-! ## Theorems: identity resolution (claim C4) -/

theorem barberMatches_nil_iff {inputN : String} {bs : List (String × BarberCfg)} :
    barberMatches inputN bs = [] ↔ ∀ pr ∈ bs, matchPred inputN pr.2 = false := by
  unfold barberMatches
  rw [List.map_eq_nil_iff, List.filter_eq_nil_iff]
  constructor
  · intro h pr hpr
    have := h pr hpr
    simpa using this
  · intro h pr hpr
    simp [h pr hpr]

theorem internalIdScan_none_iff (inputN : String) :
    ∀ bs : List (String × BarberCfg),
    (∀ pr ∈ bs, matchPred inputN pr.2 = false) →
    (internalIdScan inputN bs = none ↔ ∀ id ∈ bs.map Prod.fst, inputN ≠ normalize id) := by
  intro bs
  induction bs with
  | nil => intro _; simp [internalIdScan]
  | cons pr rest ih =>
    intro hno
    obtain ⟨id, cfg⟩ := pr
    have hm : matchPred inputN cfg = false := hno (id, cfg) (List.mem_cons_self _ _)
    rw [show internalIdScan inputN ((id, cfg) :: rest) =
      (if inputN = normalize id then
        match internalIdScan inputN rest with
        | some j => some j
        | none => some id
      else internalIdScan inputN rest) from by simp [internalIdScan, hm]]
    have ihr := ih (fun q hq => hno q (List.mem_cons_of_mem _ hq))
    by_cases he : inputN = normalize id
    · rw [if_pos he]
      constructor
      · intro habs
        exfalso
        cases hrec : internalIdScan inputN rest <;> rw [hrec] at habs <;> cases habs
      · intro hall
        exact absurd he (hall id (by simp))
    · rw [if_neg he, ihr]
      constructor
      · intro hall id' hid'
        have hsplit : id' = id ∨ ∃ c, (id', c) ∈ rest := by simpa using hid'
        rcases hsplit with rfl | ⟨c, hc⟩
        · exact he
        · exact hall id' (List.mem_map.mpr ⟨(id', c), hc, rfl⟩)
      · intro hall id' hmem
        refine hall id' ?_
        rw [List.map_cons]
        exact List.mem_cons_of_mem _ hmem

theorem internalIdScan_some_mem (inputN : String) :
    ∀ (bs : List (String × BarberCfg)) (iid : String),
    internalIdScan inputN bs = some iid →
    iid ∈ bs.map Prod.fst ∧ inputN = normalize iid := by
  intro bs
  induction bs with
  | nil => intro iid h; cases h
  | cons pr rest ih =>
    intro iid h
    obtain ⟨id, cfg⟩ := pr
    by_cases hm : matchPred inputN cfg
    · rw [show internalIdScan inputN ((id, cfg) :: rest) = internalIdScan inputN rest
        from by simp [internalIdScan, hm]] at h
      obtain ⟨h1, h2⟩ := ih iid h
      exact ⟨by simp [h1], h2⟩
    · rw [show internalIdScan inputN ((id, cfg) :: rest) =
        (if inputN = normalize id then
          match internalIdScan inputN rest with
          | some j => some j
          | none => some id
        else internalIdScan inputN rest) from by
          simp [internalIdScan, Bool.of_not_eq_true hm]] at h
      by_cases he : inputN = normalize id
      · rw [if_pos he] at h
        cases hrec : internalIdScan inputN rest with
        | some j =>
          rw [hrec] at h
          rw [Option.some.injEq] at h
          obtain ⟨h1, h2⟩ := ih j hrec
          exact ⟨by simp [h ▸ h1], h ▸ h2⟩
        | none =>
          rw [hrec] at h
          rw [Option.some.injEq] at h
          refine ⟨by simp [← h], h ▸ he⟩
      · rw [if_neg he] at h
        obtain ⟨h1, h2⟩ := ih iid h
        exact ⟨by simp [h1], h2⟩

theorem resolveBarber_eq_match (bs : List (String × BarberCfg)) (name : String)
    (h : name ≠ "") :
    resolveBarber bs name =
      match internalIdScan (normalize name) bs, barberMatches (normalize name) bs with
      | some iid, [] => .internalIdUsed iid
      | none, [] => .notFound
      | _, [m] => .ok m.1 m.2
      | _, m1 :: m2 :: ms => .ambiguous (m1 :: m2 :: ms) := by
  unfold resolveBarber
  rw [if_neg h]

/-- C4: for every nonempty query name and loaded resource mapping, identity
resolution returns exactly one of four outcomes, determined by the list of
matches (display name or alias, in mapping order): a unique match yields
success with that resource's internal id and display name; two or more
matches yield the Ambiguous failure carrying exactly the match list; no
match at all yields the InternalIdUsed failure when the normalised query
equals the normalised internal id of some resource, and the NotFound
failure otherwise; the parameter-missing outcome never occurs for a
nonempty name, so there is no silent default. -/
theorem c4_resolve_taxonomy (bs : List (String × BarberCfg)) (name : String)
    (h : name ≠ "") :
    (∀ m, barberMatches (normalize name) bs = [m] →
      resolveBarber bs name = .ok m.1 m.2) ∧
    (∀ m1 m2 ms, barberMatches (normalize name) bs = m1 :: m2 :: ms →
      resolveBarber bs name = .ambiguous (barberMatches (normalize name) bs)) ∧
    (barberMatches (normalize name) bs = [] →
      (∃ id ∈ bs.map Prod.fst, normalize name = normalize id) →
      ∃ iid ∈ bs.map Prod.fst, normalize name = normalize iid ∧
        resolveBarber bs name = .internalIdUsed iid) ∧
    (barberMatches (normalize name) bs = [] →
      (∀ id ∈ bs.map Prod.fst, normalize name ≠ normalize id) →
      resolveBarber bs name = .notFound) ∧
    resolveBarber bs name ≠ .paramMissing := by
  have hrb := resolveBarber_eq_match bs name h
  refine ⟨?_, ?_, ?_, ?_, ?_⟩
  · intro m hm
    rw [hrb, hm]
    cases internalIdScan (normalize name) bs <;> rfl
  · intro m1 m2 ms hm
    rw [hrb, hm]
    cases internalIdScan (normalize name) bs <;> rfl
  · intro hms hex
    have hno := barberMatches_nil_iff.mp hms
    cases hscan : internalIdScan (normalize name) bs with
    | none =>
      exfalso
      rcases hex with ⟨id, hid, he⟩
      exact ((internalIdScan_none_iff (normalize name) bs hno).mp hscan) id hid he
    | some iid =>
      obtain ⟨hmem, heq⟩ := internalIdScan_some_mem (normalize name) bs iid hscan
      refine ⟨iid, hmem, heq, ?_⟩
      rw [hrb, hms, hscan]
  · intro hms hall
    have hno := barberMatches_nil_iff.mp hms
    cases hscan : internalIdScan (normalize name) bs with
    | none => rw [hrb, hms, hscan]
    | some iid =>
      exfalso
      obtain ⟨hmem, heq⟩ := internalIdScan_some_mem (normalize name) bs iid hscan
      exact hall iid hmem heq
  · rw [hrb]
    cases internalIdScan (normalize name) bs <;>
      rcases barberMatches (normalize name) bs with _ | ⟨m1, _ | ⟨m2, ms⟩⟩ <;> simp

/-- C4 witness: a mapping with one resource whose display name is queried
exactly resolves to that resource's internal id and display name. -/
theorem c4_resolve_taxonomy_wit :
    resolveBarber [("b1", ⟨"Carlos", ["carli"]⟩)] "Carlos" = .ok "b1" "Carlos" := by
  have happ := (c4_resolve_taxonomy [("b1", ⟨"Carlos", ["carli"]⟩)] "Carlos"
    (by decide)).1 ("b1", "Carlos") (by decide)
  exact happ

/-! ## Theorems: idempotent create path (claims C5, C8, C10) -/

theorem cacheGetVal_evict_future {α : Type} (t : Int) (c : CacheF α) (k : String) :
    ∀ (k' : String) (t' : Int), t ≤ t' →
    cacheGetVal t' (cacheEvict t c k) k' = cacheGetVal t' c k' := by
  intro k' t' ht
  unfold cacheEvict
  cases hc : c k with
  | none => rfl
  | some pr =>
    obtain ⟨v, exp⟩ := pr
    dsimp only
    by_cases hexp : exp < t
    · rw [if_pos hexp]
      by_cases hk : k' = k
      · subst hk
        unfold cacheGetVal
        dsimp only
        rw [if_pos rfl, hc]
        dsimp only
        rw [if_pos (show exp < t' by omega)]
      · unfold cacheGetVal
        dsimp only
        rw [if_neg hk]
    · rw [if_neg hexp]

theorem cacheGetVal_mono_none {α : Type} {t t' : Int} {c : CacheF α} {k : String}
    (h : cacheGetVal t c k = none) (ht : t ≤ t') : cacheGetVal t' c k = none := by
  unfold cacheGetVal at h ⊢
  cases hc : c k with
  | none => rfl
  | some pr =>
    obtain ⟨v, exp⟩ := pr
    rw [hc] at h
    dsimp only at h ⊢
    by_cases hexp : exp < t
    · rw [if_pos (show exp < t' by omega)]
    · rw [if_neg hexp] at h
      cases h

/-- C10: the idempotency wrapper stores a result only after the wrapped
operation succeeds: when the operation fails on a cache miss, the error is
propagated, the cache is observationally unchanged for every key at every
instant from the call onwards (the only possible mutation is the lazy
removal of an entry that was already expired), the key still misses at any
later instant, and a subsequent call under the same key invokes the wrapped
operation again. -/
theorem c10_no_store_on_error {α ε : Type} (t t2 : Int) (k : String) (c : CacheF α)
    (e : ε) (fn2 : Except ε α) (hmiss : cacheGetVal t c k = none) (ht : t ≤ t2) :
    withIdempotency t k c (.error e) = (.error e, cacheEvict t c k, 1) ∧
    (∀ (k' : String) (t' : Int), t ≤ t' →
      cacheGetVal t' (cacheEvict t c k) k' = cacheGetVal t' c k') ∧
    cacheGetVal t2 (cacheEvict t c k) k = none ∧
    (withIdempotency t2 k (cacheEvict t c k) fn2).2.2 = 1 := by
  have hobs := cacheGetVal_evict_future t c k
  have hmiss2 : cacheGetVal t2 (cacheEvict t c k) k = none := by
    rw [hobs k t2 ht]
    exact cacheGetVal_mono_none hmiss ht
  refine ⟨?_, hobs, hmiss2, ?_⟩
  · unfold withIdempotency
    rw [hmiss]
  · unfold withIdempotency
    rw [hmiss2]
    cases fn2 <;> rfl

/-- C10 witness: a failing remote call on an empty cache counts one
invocation, and the retry under the same key invokes the remote again. -/
theorem c10_no_store_on_error_wit :
    (withIdempotency 0 "k" (fun _ => none : CacheF Nat)
      (.error () : Except Unit Nat)).2.2 = 1 ∧
    (withIdempotency 10 "k"
      (cacheEvict 0 (fun _ => none : CacheF Nat) "k")
      (.ok 5 : Except Unit Nat)).2.2 = 1 := by
  have h := @c10_no_store_on_error Nat Unit 0 10 "k" (fun _ => none) ()
    (.ok 5) rfl (by norm_num)
  exact ⟨by rw [h.1], h.2.2.2⟩

/-- C8: for a create request whose description parameter is present and
whose calendar reference resolves, an unparsable requested time fails with
invalidWhen and a parsed time at or before now (including exactly now)
fails with inPast; in both failure cases the cache is returned untouched
and the remote insertion count is zero. -/
theorem c8_validation_before_remote {α ε : Type} (t : Int)
    (barberMap : List (String × String)) (p : CreateParams)
    (c : CacheF α) (remote : Except ε α)
    (hwho : p.whoP.isSome)
    (hcal : ∃ cid, (resolveCalendarId barberMap p.calendarIdP p.barberP :
      Except (CreateErr ε) String) = .ok cid) :
    (p.whenP = some none →
      createEvent t barberMap p c remote = (.error .invalidWhen, c, 0)) ∧
    (∀ dt, p.whenP = some (some dt) → dt ≤ t →
      createEvent t barberMap p c remote = (.error .inPast, c, 0)) := by
  obtain ⟨who, hwho'⟩ := Option.isSome_iff_exists.mp hwho
  obtain ⟨cid, hcid⟩ := hcal
  constructor
  · intro hwhen
    unfold createEvent
    rw [hwhen, hwho', hcid]
    rfl
  · intro dt hwhen hpast
    unfold createEvent
    rw [hwhen, hwho', hcid]
    dsimp only
    rw [show (ensureFuture t (some dt) : Except (CreateErr ε) Int) = .error .inPast from by
      unfold ensureFuture; dsimp only; rw [if_pos hpast]]

/-- C8 witness: an unparsable time and a non-future time each fail with the
corresponding error, leave the cache untouched and perform no remote
insertion. -/
theorem c8_validation_before_remote_wit :
    createEvent 0 [] ⟨some none, some "ana", none, some "cal1", none, none⟩
      (fun _ => none : CacheF Nat) (.ok 7 : Except Unit Nat) =
      (.error .invalidWhen, (fun _ => none : CacheF Nat), 0) ∧
    createEvent 0 [] ⟨some (some 0), some "ana", none, some "cal1", none, none⟩
      (fun _ => none : CacheF Nat) (.ok 7 : Except Unit Nat) =
      (.error .inPast, (fun _ => none : CacheF Nat), 0) := by
  constructor
  · exact (c8_validation_before_remote 0 []
      ⟨some none, some "ana", none, some "cal1", none, none⟩ (fun _ => none)
      (.ok 7 : Except Unit Nat) rfl ⟨"cal1", rfl⟩).1 rfl
  · exact (c8_validation_before_remote 0 []
      ⟨some (some 0), some "ana", none, some "cal1", none, none⟩ (fun _ => none)
      (.ok 7 : Except Unit Nat) rfl ⟨"cal1", rfl⟩).2 0 rfl (by norm_num)

theorem createEvent_idem_path {α ε : Type} (t dt : Int) (rid cid who : String)
    (barberMap : List (String × String)) (p : CreateParams) (c : CacheF α)
    (remote : Except ε α)
    (hwhen : p.whenP = some (some dt)) (hwho : p.whoP = some who)
    (hcal : p.calendarIdP = some cid) (hrid : p.clientRequestIdP = some rid)
    (hfut : t < dt) :
    createEvent t barberMap p c remote =
      ((withIdempotency t ("calendar:create:" ++ rid) c remote).1.mapError
        CreateErr.remote,
       (withIdempotency t ("calendar:create:" ++ rid) c remote).2.1,
       (withIdempotency t ("calendar:create:" ++ rid) c remote).2.2) := by
  unfold createEvent
  rw [hwhen, hwho, hcal, hrid]
  dsimp only
  rw [show (ensureFuture t (some dt) : Except (CreateErr ε) Int) = .ok dt from by
    unfold ensureFuture; dsimp only; rw [if_neg (show ¬ dt ≤ t by omega)]]
  rfl

/-- C5 (amended): for two sequential create calls bearing the same
idempotency token, where the first call on a fresh token succeeds and the
second arrives within the twenty-four hour idempotency window while the
booked start time is still in the future, the second call returns the
booking result of the first verbatim, whatever the remote would have
answered, and the remote insertion is invoked exactly once across the two
calls. The original claim omits the future-time condition: the in-past
validation runs before the idempotency lookup, so a replay after the booked
start time has passed fails with inPast instead of returning the cached
result. -/
theorem c5_sequential_idempotency {α ε : Type} (t1 t2 dt : Int)
    (rid cid who : String) (barberMap : List (String × String)) (p : CreateParams)
    (c0 : CacheF α) (b : α) (remote2 : Except ε α)
    (hwhen : p.whenP = some (some dt)) (hwho : p.whoP = some who)
    (hcal : p.calendarIdP = some cid) (hrid : p.clientRequestIdP = some rid)
    (hfut1 : t1 < dt) (hfut2 : t2 < dt) (httl : t2 ≤ t1 + 86400)
    (hfresh : cacheGetVal t1 c0 ("calendar:create:" ++ rid) = none) :
    (createEvent t1 barberMap p c0 (Except.ok b : Except ε α)).1 = .ok b ∧
    (createEvent t1 barberMap p c0 (Except.ok b : Except ε α)).2.2 = 1 ∧
    (createEvent t2 barberMap p
      (createEvent t1 barberMap p c0 (Except.ok b : Except ε α)).2.1 remote2).1 = .ok b ∧
    (createEvent t2 barberMap p
      (createEvent t1 barberMap p c0 (Except.ok b : Except ε α)).2.1 remote2).2.2 = 0 := by
  have h1 := createEvent_idem_path t1 dt rid cid who barberMap p c0
    (Except.ok b : Except ε α) hwhen hwho hcal hrid hfut1
  have hw1 : withIdempotency t1 ("calendar:create:" ++ rid) c0 (Except.ok b : Except ε α) =
      (.ok b, cacheSet (cacheEvict t1 c0 ("calendar:create:" ++ rid))
        ("calendar:create:" ++ rid) b (t1 + 86400), 1) := by
    unfold withIdempotency
    rw [hfresh]
  have hhit : cacheGetVal t2
      (cacheSet (cacheEvict t1 c0 ("calendar:create:" ++ rid))
        ("calendar:create:" ++ rid) b (t1 + 86400)) ("calendar:create:" ++ rid) =
      some b := by
    unfold cacheGetVal cacheSet
    rw [if_pos rfl]
    dsimp only
    rw [if_neg (show ¬ t1 + 86400 < t2 by omega)]
  have h2 := createEvent_idem_path t2 dt rid cid who barberMap p
    (cacheSet (cacheEvict t1 c0 ("calendar:create:" ++ rid))
      ("calendar:create:" ++ rid) b (t1 + 86400)) remote2 hwhen hwho hcal hrid hfut2
  have hw2 : withIdempotency t2 ("calendar:create:" ++ rid)
      (cacheSet (cacheEvict t1 c0 ("calendar:create:" ++ rid))
        ("calendar:create:" ++ rid) b (t1 + 86400)) remote2 =
      (.ok b, cacheEvict t2
        (cacheSet (cacheEvict t1 c0 ("calendar:create:" ++ rid))
          ("calendar:create:" ++ rid) b (t1 + 86400)) ("calendar:create:" ++ rid), 0) := by
    unfold withIdempotency
    rw [hhit]
  have hc1 : (createEvent t1 barberMap p c0 (Except.ok b : Except ε α)).2.1 =
      cacheSet (cacheEvict t1 c0 ("calendar:create:" ++ rid))
        ("calendar:create:" ++ rid) b (t1 + 86400) := by
    rw [h1, hw1]
  refine ⟨?_, ?_, ?_, ?_⟩
  · rw [h1, hw1]
    rfl
  · rw [h1, hw1]
  · rw [hc1, h2, hw2]
    rfl
  · rw [hc1, h2, hw2]

/-- C5 witness: a concrete sequential pair of create calls with the same
token, both before the booked time and within the idempotency window,
returns the same booking both times with one remote insertion in total. -/
theorem c5_sequential_idempotency_wit :
    (createEvent 0 []
      ⟨some (some 100), some "ana", none, some "cal1", none, some "tok"⟩
      (fun _ => none : CacheF Nat) (Except.ok 7 : Except Unit Nat)).1 = .ok 7 ∧
    (createEvent 50 []
      ⟨some (some 100), some "ana", none, some "cal1", none, some "tok"⟩
      (createEvent 0 []
        ⟨some (some 100), some "ana", none, some "cal1", none, some "tok"⟩
        (fun _ => none : CacheF Nat) (Except.ok 7 : Except Unit Nat)).2.1
      (Except.error () : Except Unit Nat)).1 = .ok 7 := by
  have h := @c5_sequential_idempotency Nat Unit 0 50 100 "tok" "cal1" "ana"
    [] ⟨some (some 100), some "ana", none, some "cal1", none, some "tok"⟩
    (fun _ => none) 7 (Except.error ()) rfl rfl rfl rfl (by norm_num) (by norm_num)
    (by norm_num) rfl
  exact ⟨h.1, h.2.2.1⟩

/-- C5 counterexample: the same sequential replay within the idempotency
window fails with inPast — instead of returning the first call's booking —
as soon as the booked start time lies between the two calls: here the
booking is for instant ten, the first call happens at instant zero and the
replay at instant twenty. -/
theorem c5_counterexample :
    (createEvent 0 []
      ⟨some (some 10), some "ana", none, some "cal1", none, some "tok"⟩
      (fun _ => none : CacheF Nat) (Except.ok 7 : Except Unit Nat)).1 = .ok 7 ∧
    (createEvent 20 []
      ⟨some (some 10), some "ana", none, some "cal1", none, some "tok"⟩
      (createEvent 0 []
        ⟨some (some 10), some "ana", none, some "cal1", none, some "tok"⟩
        (fun _ => none : CacheF Nat) (Except.ok 7 : Except Unit Nat)).2.1
      (Except.ok 7 : Except Unit Nat)).1 = .error .inPast := by
  exact ⟨rfl, rfl⟩

/-! ## Theorems: rate limiter (claim C6) -/

theorem rateAllow_fresh (limit now : Int) (hl : 0 < limit) :
    rateAllow limit now none = (true, some ⟨now, 1⟩) := by
  unfold rateAllow
  rw [if_neg (show ¬ limit ≤ 0 by omega)]
  simp only [Option.getD_none]
  rw [if_neg (show ¬ 60 ≤ now - now by omega)]
  rw [if_neg (show ¬ limit ≤ (0 : Int) by omega)]
  norm_num

theorem rateAllow_inc (limit now : Int) (w : RateWindow) (hl : 0 < limit)
    (hwin : now - w.windowStart < 60) (hcnt : w.count < limit) :
    rateAllow limit now (some w) = (true, some ⟨w.windowStart, w.count + 1⟩) := by
  unfold rateAllow
  rw [if_neg (show ¬ limit ≤ 0 by omega)]
  simp only [Option.getD_some]
  rw [if_neg (show ¬ 60 ≤ now - w.windowStart by omega)]
  rw [if_neg (show ¬ limit ≤ w.count by omega)]

theorem rateAllow_reject (limit now : Int) (w : RateWindow) (hl : 0 < limit)
    (hwin : now - w.windowStart < 60) (hcnt : limit ≤ w.count) :
    rateAllow limit now (some w) = (false, some w) := by
  unfold rateAllow
  rw [if_neg (show ¬ limit ≤ 0 by omega)]
  simp only [Option.getD_some]
  rw [if_neg (show ¬ 60 ≤ now - w.windowStart by omega)]
  rw [if_pos hcnt]

theorem rateAllow_reset (limit now : Int) (w : RateWindow) (hl : 0 < limit)
    (hwin : 60 ≤ now - w.windowStart) :
    rateAllow limit now (some w) = (true, some ⟨now, 1⟩) := by
  unfold rateAllow
  rw [if_neg (show ¬ limit ≤ 0 by omega)]
  simp only [Option.getD_some]
  rw [if_pos hwin]

/-- C6: with the limit configured to three per minute, for one rate-limit
key, three calls within sixty seconds of the first are all allowed, a
fourth call still within that window is rejected and leaves the stored
window — in particular its counter — exactly as it was after the third
call, and the first call at least sixty seconds after the window start is
allowed again (with a fresh window). -/
theorem c6_rate_limit_three (t0 t1 t2 t3 t4 : Int)
    (h01 : t0 ≤ t1) (h12 : t1 ≤ t2) (h23 : t2 ≤ t3)
    (hwin : t3 - t0 < 60) (hroll : 60 ≤ t4 - t0) :
    rateAllowRun 3 none [t0, t1, t2, t3] = ([true, true, true, false], some ⟨t0, 3⟩) ∧
    (rateAllowRun 3 none [t0, t1, t2, t3]).2 = (rateAllowRun 3 none [t0, t1, t2]).2 ∧
    rateAllow 3 t4 (some ⟨t0, 3⟩) = (true, some ⟨t4, 1⟩) := by
  have s1 : rateAllow 3 t0 none = (true, some ⟨t0, 1⟩) :=
    rateAllow_fresh 3 t0 (by norm_num)
  have s2 : rateAllow 3 t1 (some ⟨t0, 1⟩) = (true, some ⟨t0, 2⟩) := by
    have h := rateAllow_inc 3 t1 ⟨t0, 1⟩ (by norm_num)
      (show t1 - t0 < 60 by omega) (show (1 : Int) < 3 by norm_num)
    simpa using h
  have s3 : rateAllow 3 t2 (some ⟨t0, 2⟩) = (true, some ⟨t0, 3⟩) := by
    have h := rateAllow_inc 3 t2 ⟨t0, 2⟩ (by norm_num)
      (show t2 - t0 < 60 by omega) (show (2 : Int) < 3 by norm_num)
    simpa using h
  have s4 : rateAllow 3 t3 (some ⟨t0, 3⟩) = (false, some ⟨t0, 3⟩) :=
    rateAllow_reject 3 t3 ⟨t0, 3⟩ (by norm_num)
      (show t3 - t0 < 60 by omega) (show (3 : Int) ≤ 3 by norm_num)
  have s5 : rateAllow 3 t4 (some ⟨t0, 3⟩) = (true, some ⟨t4, 1⟩) :=
    rateAllow_reset 3 t4 ⟨t0, 3⟩ (by norm_num) (show 60 ≤ t4 - t0 by omega)
  refine ⟨?_, ?_, s5⟩
  · simp only [rateAllowRun, s1, s2, s3, s4]
  · simp only [rateAllowRun, s1, s2, s3, s4]

/-- C6 witness: concrete call instants zero, ten, twenty, thirty and sixty. -/
theorem c6_rate_limit_three_wit :
    rateAllowRun 3 none [0, 10, 20, 30] = ([true, true, true, false], some ⟨0, 3⟩) ∧
    rateAllow 3 60 (some ⟨0, 3⟩) = (true, some ⟨60, 1⟩) :=
  ⟨(c6_rate_limit_three 0 10 20 30 60 (by norm_num) (by norm_num) (by norm_num)
      (by norm_num) (by norm_num)).1,
   (c6_rate_limit_three 0 10 20 30 60 (by norm_num) (by norm_num) (by norm_num)
      (by norm_num) (by norm_num)).2.2⟩

/-! ## Theorems: authentication (claim C7) -/

theorem timingSafeCompare_iff (a b : String) : timingSafeCompare a b = true ↔ a = b := by
  unfold timingSafeCompare
  by_cases h : utf8Len a = utf8Len b
  · rw [if_pos h]
    exact beq_iff_eq
  · rw [if_neg h]
    constructor
    · intro hf; cases hf
    · intro hab; exact absurd (hab ▸ rfl) h

/-- C7 (amended): the router's authentication check treats every caller as
authorized when no secret is configured and never rejects, and with a
configured secret it authorizes exactly the callers presenting a credential
equal to the secret; the standalone auth middleware however rejects every
request with a server-error — not Unauthorized — when no secret is
configured, and with a configured secret it allows exactly the requests
presenting a bearer token equal to the secret. The original claim that the
authentication stage treats callers as authorized whenever no secret is
configured holds for the router check but fails for the middleware. -/
theorem c7_auth_policy (apiKey incoming hdr : String) :
    (apiKey = "" → routerAuth apiKey incoming = true) ∧
    (apiKey ≠ "" → (routerAuth apiKey incoming = true ↔ incoming = apiKey)) ∧
    authMiddleware "" hdr = .serverError ∧
    (apiKey ≠ "" → (authMiddleware apiKey hdr = .allowed ↔
      extractBearer hdr = some apiKey)) := by
  refine ⟨?_, ?_, ?_, ?_⟩
  · intro h
    unfold routerAuth
    rw [if_pos h]
  · intro h
    unfold routerAuth
    rw [if_neg h, timingSafeCompare_iff]
    exact eq_comm
  · unfold authMiddleware
    rw [if_pos rfl]
  · intro h
    unfold authMiddleware
    rw [if_neg h]
    cases hb : extractBearer hdr with
    | none => simp
    | some tok =>
      by_cases ht : tok = apiKey
      · subst ht
        simp
      · simp [ht]

/-- C7 witness: an unconfigured router key authorizes an arbitrary caller, a
configured key authorizes its own presentation, and the middleware allows a
matching bearer token. -/
theorem c7_auth_policy_wit :
    routerAuth "" "x" = true ∧ routerAuth "k" "k" = true ∧
    authMiddleware "k" "Bearer k" = .allowed :=
  ⟨(c7_auth_policy "" "x" "h").1 rfl,
   ((c7_auth_policy "k" "k" "h").2.1 (by decide)).mpr rfl,
   ((c7_auth_policy "k" "Bearer k" "Bearer k").2.2.2 (by decide)).mpr (by decide)⟩

/-- C7 counterexample: with no configured secret the auth middleware does
not treat the caller as authorized; it rejects the request with a server
error. -/
theorem c7_counterexample :
    authMiddleware "" "Bearer secret" = .serverError ∧
    AuthOutcome.serverError ≠ AuthOutcome.allowed := by decide

end Valeria
